import Mathlib

set_option maxRecDepth 8192

/- Shallow embedding of the static Rust declaration scanner and heuristic
size-estimation engine of rust-memory-monitor (src/extension.ts, class
MemoryMonitorProvider).  JavaScript strings are modelled as Lean String or
List Char; all numeric quantities in the scanner are non-negative integers,
modelled as Nat.  Each regular expression of the source is embedded as a
deterministic scanner that reproduces the backtracking behaviour of the
JavaScript regex engine on that particular pattern (the relevant patterns
are simple enough that their match is a deterministic function of the
input, which is argued case by case in the doc comments below). -/

/-- Character class of the JavaScript regex whitespace escape (backslash-s):
tab through carriage return, space, NBSP, and the Unicode space separators. -/
def jsWs (c : Char) : Bool :=
  let n := c.toNat
  (9 ≤ n && n ≤ 13) || n == 32 || n == 160 || n == 0x1680 ||
    (0x2000 ≤ n && n ≤ 0x200a) || n == 0x2028 || n == 0x2029 || n == 0x202f ||
    n == 0x205f || n == 0x3000 || n == 0xfeff

/-- The opening curly bracket character. -/
def lbraceChar : Char := Char.ofNat 123

/-- The closing curly bracket character. -/
def rbraceChar : Char := Char.ofNat 125

/-- The apostrophe character (appears in the type-annotation character class
of the binding regex, for Rust lifetimes). -/
def squoteChar : Char := Char.ofNat 39

/-- JS String.prototype.includes on character lists: some suffix of the
first list has the second as a prefix. -/
def containsList : List Char → List Char → Bool
  | [], pat => pat.isEmpty
  | c :: rest, pat => List.isPrefixOf pat (c :: rest) || containsList rest pat

/-- JS String.prototype.includes. -/
def containsStr (s pat : String) : Bool := containsList s.data pat.data

/-- JS String.prototype.trim on character lists (whitespace per jsWs). -/
def trimList (s : List Char) : List Char :=
  ((s.dropWhile jsWs).reverse.dropWhile jsWs).reverse

/-- JS String.prototype.trim. -/
def trimJs (s : String) : String := (trimList s.data).asString

/-- JS String.prototype.split with a one-character separator (never drops
empty segments, exactly like the JavaScript method). -/
def splitOnCharAux (sep : Char) : List Char → List Char → List (List Char)
  | [], acc => [acc.reverse]
  | c :: rest, acc =>
    if c = sep then acc.reverse :: splitOnCharAux sep rest []
    else splitOnCharAux sep rest (c :: acc)

/-- JS String.prototype.split with a one-character separator. -/
def splitOnChar (sep : Char) (s : List Char) : List (List Char) := splitOnCharAux sep s []

/-- parseInt applied to the digit-run capture of a regex group. -/
def digitsToNat (ds : List Char) : Nat :=
  ds.foldl (fun n c => n * 10 + (c.toNat - 48)) 0

/-- Result of the size estimator: a stack-byte and heap-byte pair
(estimateTypeSize in the source returns an object with these two fields). -/
structure TypeEstimate where
  stack : Nat
  heap : Nat
deriving DecidableEq

/-- One attempt of the fixed-size array regex at the head of the input: the
literal open-bracket-u8-semicolon, optional whitespace, a non-empty digit
run (greedy; no backtrack can succeed since a shorter run would have to be
followed by a digit where a closing bracket is required), then the closing
square bracket. -/
def u8ArrayTryAt (s : List Char) : Option Nat :=
  if List.isPrefixOf "[u8;".data s then
    let s1 := (s.drop 4).dropWhile jsWs
    let ds := s1.takeWhile Char.isDigit
    if ds.isEmpty then none
    else
      match s1.drop ds.length with
      | ']' :: _ => some (digitsToNat ds)
      | _ => none
  else none

/-- First match of the fixed-size array regex anywhere in the input (the JS
engine slides the start position one character at a time). -/
def u8ArrayLen : List Char → Option Nat
  | [] => none
  | c :: rest =>
    match u8ArrayTryAt (c :: rest) with
    | some n => some n
    | none => u8ArrayLen rest

/-- One attempt, at the head of the input, of the regex used by
estimateStringHeap for a String::from with a quoted literal: the literal
call head, optional whitespace, a double quote, a greedy run of non-quote
characters (deterministic: the run is delimited by the next double quote),
the closing quote, optional whitespace, and the closing parenthesis. -/
def stringFromTryAt (s : List Char) : Option (List Char) :=
  if List.isPrefixOf "String::from(".data s then
    match (s.drop 13).dropWhile jsWs with
    | '"' :: rest =>
      let cap := rest.takeWhile (fun c => !(c = '"'))
      match rest.drop cap.length with
      | '"' :: after =>
        match after.dropWhile jsWs with
        | ')' :: _ => some cap
        | _ => none
      | _ => none
    | _ => none
  else none

/-- First match of the String::from regex anywhere in the input. -/
def stringFromSearch : List Char → Option (List Char)
  | [] => none
  | c :: rest =>
    match stringFromTryAt (c :: rest) with
    | some cap => some cap
    | none => stringFromSearch rest

/-- One attempt, at the head of the input, of the quoted-literal to_string
regex of estimateStringHeap: a double quote, a greedy non-quote run, the
closing quote, then the literal dot-to_string-call. -/
def toStringTryAt (s : List Char) : Option (List Char) :=
  match s with
  | '"' :: rest =>
    let cap := rest.takeWhile (fun c => !(c = '"'))
    match rest.drop cap.length with
    | '"' :: after =>
      if List.isPrefixOf ".to_string()".data after then some cap else none
    | _ => none
  | _ => none

/-- First match of the to_string regex anywhere in the input. -/
def toStringSearch : List Char → Option (List Char)
  | [] => none
  | c :: rest =>
    match toStringTryAt (c :: rest) with
    | some cap => some cap
    | none => toStringSearch rest

/-- One attempt, at the head of the input, of a capacity regex of the form
LITERAL-head, optional whitespace, non-empty digit run, optional whitespace,
closing parenthesis; the literal head (including its opening parenthesis) is
a parameter, shared by the String / Vec / collection with_capacity regexes. -/
def capacityTryAt (lit : List Char) (s : List Char) : Option Nat :=
  if List.isPrefixOf lit s then
    let s1 := (s.drop lit.length).dropWhile jsWs
    let ds := s1.takeWhile Char.isDigit
    if ds.isEmpty then none
    else
      match (s1.drop ds.length).dropWhile jsWs with
      | ')' :: _ => some (digitsToNat ds)
      | _ => none
  else none

/-- First match of a capacity regex anywhere in the input. -/
def capacitySearch (lit : List Char) : List Char → Option Nat
  | [] => none
  | c :: rest =>
    match capacityTryAt lit (c :: rest) with
    | some n => some n
    | none => capacitySearch lit rest

/-- estimateStringHeap of the source: heap bytes for a String binding,
refined from the initializer expression when one was captured. -/
def estimateStringHeap (initValue : Option String) : Nat :=
  match initValue with
  | none => 64
  | some v =>
    if containsStr v "String::new()" then 0
    else
      match stringFromSearch v.data with
      | some cap => cap.length
      | none =>
        match toStringSearch v.data with
        | some cap => cap.length
        | none =>
          match capacitySearch "String::with_capacity(".data v.data with
          | some n => n
          | none =>
            if containsStr v "format!" then 128
            else if containsStr v ".to_owned()" || containsStr v ".clone()" then 64
            else 64

/-- guessVecElementSize of the source: element size from the inner generic
parameter of the vector type text, by substring containment. -/
def guessVecElementSize (type : String) : Nat :=
  if containsStr type "Vec<u8>" || containsStr type "Vec<i8>" || containsStr type "Vec<bool>" then 1
  else if containsStr type "Vec<u16>" || containsStr type "Vec<i16>" then 2
  else if containsStr type "Vec<u32>" || containsStr type "Vec<i32>" || containsStr type "Vec<f32>" then 4
  else if containsStr type "Vec<u64>" || containsStr type "Vec<i64>" || containsStr type "Vec<f64>" then 8
  else if containsStr type "Vec<String>" then 24
  else 8

/-- One attempt, at the head of the input, of the vec-macro regex of
estimateVecHeap: the literal vec-bang-open-bracket, a greedy run of
non-closing-bracket characters, then the closing square bracket. -/
def vecLiteralTryAt (s : List Char) : Option (List Char) :=
  if List.isPrefixOf "vec![".data s then
    let rest := s.drop 5
    let cap := rest.takeWhile (fun c => !(c = ']'))
    match rest.drop cap.length with
    | ']' :: _ => some cap
    | _ => none
  else none

/-- First match of the vec-macro regex anywhere in the input. -/
def vecLiteralSearch : List Char → Option (List Char)
  | [] => none
  | c :: rest =>
    match vecLiteralTryAt (c :: rest) with
    | some cap => some cap
    | none => vecLiteralSearch rest

/-- For the repeat-form regex of estimateVecHeap (greedy dot-plus, then a
semicolon, optional whitespace, digit run): test a semicolon at position k
of the input with a non-empty digit run after it, returning the parsed
count capture. -/
def repeatFromPos (s : List Char) (k : Nat) : Option Nat :=
  if s[k]? = some ';' then
    let ds := ((s.drop (k + 1)).dropWhile jsWs).takeWhile Char.isDigit
    if ds.isEmpty then none else some (digitsToNat ds)
  else none

/-- Backtracking of the greedy dot-plus: try the semicolon at positions
k, k-1, ..., 1 (the dot-plus needs at least one character before it). -/
def repeatDesc (s : List Char) : Nat → Option Nat
  | 0 => none
  | k + 1 =>
    match repeatFromPos s (k + 1) with
    | some n => some n
    | none => repeatDesc s k

/-- One attempt of the repeat-form regex with the dot-plus starting at the
head of the input: the dot cannot cross a newline, so the semicolon can sit
at positions 1 .. (length of the non-newline prefix) - 1, tried greedily
from the right. -/
def repeatTryAt (s : List Char) : Option Nat :=
  match (s.takeWhile (fun c => !(c = '\n'))).length with
  | 0 => none
  | m + 1 => repeatDesc s m

/-- First match of the repeat-form regex anywhere in the input. -/
def repeatSearch : List Char → Option Nat
  | [] => none
  | c :: rest =>
    match repeatTryAt (c :: rest) with
    | some n => some n
    | none => repeatSearch rest

/-- estimateVecHeap of the source: heap bytes for a Vec binding, refined
from the initializer expression when one was captured. -/
def estimateVecHeap (type : String) (initValue : Option String) : Nat :=
  let elemSize := guessVecElementSize type
  match initValue with
  | none => elemSize * 16
  | some v =>
    if containsStr v "Vec::new()" then 0
    else
      match vecLiteralSearch v.data with
      | some inner =>
        let content := trimList inner
        if content.isEmpty then 0
        else
          match repeatSearch content with
          | some n => n * elemSize
          | none =>
            ((splitOnChar ',' content).filter (fun e => !(trimList e).isEmpty)).length * elemSize
      | none =>
        match capacitySearch "Vec::with_capacity(".data v.data with
        | some n => n * elemSize
        | none => elemSize * 16

/-- estimateCollectionHeap of the source: heap bytes for map and set
bindings, refined from the initializer expression. -/
def estimateCollectionHeap (initValue : Option String) : Nat :=
  match initValue with
  | none => 0
  | some v =>
    if containsStr v "::new()" then 0
    else
      match capacitySearch "with_capacity(".data v.data with
      | some n => n * 64
      | none => 0

/-- estimateTypeSize of the source: the ordered table of substring
predicates over the type label, evaluated top to bottom exactly in the
order of the source, with the initializer forwarded to the heap
heuristics of the String / Vec / map / set rows. -/
def estimateTypeSize (type : String) (initValue : Option String) : TypeEstimate :=
  if containsStr type "i8" && !containsStr type "i128" then ⟨1, 0⟩
  else if containsStr type "u8" && !containsStr type "u128" then ⟨1, 0⟩
  else if containsStr type "i16" then ⟨2, 0⟩
  else if containsStr type "u16" then ⟨2, 0⟩
  else if containsStr type "i32" then ⟨4, 0⟩
  else if containsStr type "u32" then ⟨4, 0⟩
  else if containsStr type "f32" then ⟨4, 0⟩
  else if containsStr type "i64" then ⟨8, 0⟩
  else if containsStr type "u64" then ⟨8, 0⟩
  else if containsStr type "f64" then ⟨8, 0⟩
  else if containsStr type "i128" then ⟨16, 0⟩
  else if containsStr type "u128" then ⟨16, 0⟩
  else if containsStr type "isize" then ⟨8, 0⟩
  else if containsStr type "usize" then ⟨8, 0⟩
  else if containsStr type "bool" then ⟨1, 0⟩
  else if containsStr type "char" then ⟨4, 0⟩
  else if containsStr type "&str" || containsStr type "&[u8]" then ⟨16, 0⟩
  else if containsStr type "&" then ⟨8, 0⟩
  else if containsStr type "String" then ⟨24, estimateStringHeap initValue⟩
  else if containsStr type "Vec" then ⟨24, estimateVecHeap type initValue⟩
  else if containsStr type "HashMap" || containsStr type "BTreeMap" then
    ⟨48, estimateCollectionHeap initValue⟩
  else if containsStr type "HashSet" || containsStr type "BTreeSet" then
    ⟨32, estimateCollectionHeap initValue⟩
  else if containsStr type "Box" then ⟨8, 8⟩
  else if containsStr type "Arc" || containsStr type "Rc" then ⟨8, 24⟩
  else if containsStr type "Option" then ⟨24, 0⟩
  else if containsStr type "Result" then ⟨24, 0⟩
  else if containsStr type "[u8;" then
    match u8ArrayLen type.data with
    | some n => ⟨n, 0⟩
    | none => ⟨24, 0⟩
  else ⟨8, 0⟩

/-- The brace-interior regex of estimateStructSize and estimateEnumSize
(open brace, greedy non-close-brace run, close brace), scanning forward:
a match at an open brace succeeds exactly when some closing brace follows,
and then captures the run up to the first closing brace; on failure the
engine slides one character (a later open brace cannot succeed either when
this one finds no closing brace, so sliding is faithful). -/
def braceInterior : List Char → Option (List Char)
  | [] => none
  | c :: rest =>
    if c = lbraceChar then
      if rest.any (fun d => d = rbraceChar) then
        some (rest.takeWhile (fun d => !(d = rbraceChar)))
      else braceInterior rest
    else braceInterior rest

/-- First character class of an identifier in the source regexes. -/
def isIdentStart (c : Char) : Bool := c.isAlpha || c = '_'

/-- Word-character class of the source regexes (letters, digits, underscore). -/
def isWordChar (c : Char) : Bool := c.isAlpha || c.isDigit || c = '_'

/-- Consume a greedy identifier at the head of the input, returning the
remainder (shrinking the greedy run can never help the patterns that use
it, since the character after a shorter run would still be a word character
where a non-word character is required next). -/
def identTake (s : List Char) : Option (List Char) :=
  match s with
  | c :: rest => if isIdentStart c then some (rest.dropWhile isWordChar) else none
  | [] => none

/-- The whitespace-star dot-plus tail of the field regex, applied to the
text after the colon: greedy whitespace, then a non-empty capture of
non-newline characters; when everything after the colon is whitespace the
greedy whitespace backtracks by one position provided that character is not
a newline (a dot never matches a newline), so the capture degenerates to a
single whitespace character. -/
def wsDotCapture (t : List Char) : Option (List Char) :=
  let w := t.takeWhile jsWs
  let v := t.drop w.length
  match v with
  | _ :: _ => some (v.takeWhile (fun c => !(c = '\n')))
  | [] =>
    match w.reverse.dropWhile (fun c => c = '\n') with
    | [] => none
    | c :: _ => some [c]

/-- One attempt of the struct-field regex core (identifier, optional
whitespace, colon, then the type capture) at the head of the input. -/
def fieldCoreAt (s : List Char) : Option (List Char) :=
  match identTake s with
  | some rest =>
    match rest.dropWhile jsWs with
    | ':' :: t => wsDotCapture t
    | _ => none
  | none => none

/-- One attempt of the full struct-field regex at the head of the input:
the optional pub-plus-whitespace group is tried first when it can match,
and on failure of the continuation the group backtracks to empty. -/
def fieldTryAt (s : List Char) : Option (List Char) :=
  if List.isPrefixOf "pub".data s then
    let t := s.drop 3
    let s3 := t.dropWhile jsWs
    if s3.length = t.length then fieldCoreAt s
    else
      match fieldCoreAt s3 with
      | some cap => some cap
      | none => fieldCoreAt s
  else fieldCoreAt s

/-- First match of the struct-field regex anywhere in the field text (the
JS match call is not anchored). -/
def fieldTypeSearch : List Char → Option (List Char)
  | [] => none
  | c :: rest =>
    match fieldTryAt (c :: rest) with
    | some cap => some cap
    | none => fieldTypeSearch rest

/-- estimateStructSize of the source (also used for unions): brace interior
from the match offset, comma-split into fields, each non-blank field matched
against the field regex and its type capture fed to the size estimator;
stack sizes and heap sizes are summed, and a floor of 8 stack bytes is
applied only when the accumulated stack total is zero. Without a brace
interior the result is the zero pair. -/
def estimateStructSize (content : String) (startIndex : Nat) : TypeEstimate :=
  match braceInterior (content.data.drop startIndex) with
  | none => ⟨0, 0⟩
  | some interior =>
    let fields := (splitOnChar ',' interior).filter (fun f => !(trimList f).isEmpty)
    let ests := fields.filterMap (fun f =>
      (fieldTypeSearch (trimList f)).map (fun cap =>
        estimateTypeSize (trimList cap).asString none))
    let stackSum := (ests.map TypeEstimate.stack).sum
    let heapSum := (ests.map TypeEstimate.heap).sum
    ⟨if stackSum = 0 then 8 else stackSum, heapSum⟩

/-- One attempt of the tuple-payload regex of estimateEnumSize (open
parenthesis, non-empty greedy non-close-parenthesis run, close parenthesis)
at the head of the input. -/
def tupleTryAt (s : List Char) : Option (List Char) :=
  match s with
  | '(' :: rest =>
    let cap := rest.takeWhile (fun c => !(c = ')'))
    if cap.isEmpty then none
    else
      match rest.drop cap.length with
      | ')' :: _ => some cap
      | _ => none
  | _ => none

/-- First match of the tuple-payload regex anywhere in a variant segment. -/
def tupleInner : List Char → Option (List Char)
  | [] => none
  | c :: rest =>
    match tupleTryAt (c :: rest) with
    | some cap => some cap
    | none => tupleInner rest

/-- estimateEnumSize of the source: brace interior from the match offset,
comma-split into variant segments; a segment with a tuple payload
contributes the summed stack sizes of the comma-split payload types, any
other segment contributes 0; the result is 8 (discriminant) plus the
largest contribution. -/
def estimateEnumSize (content : String) (startIndex : Nat) : Nat :=
  match braceInterior (content.data.drop startIndex) with
  | none => 8
  | some interior =>
    let variants := (splitOnChar ',' interior).filter (fun v => !(trimList v).isEmpty)
    let maxSize := variants.foldl (fun acc v =>
      match tupleInner v with
      | some inner =>
        Nat.max acc (((splitOnChar ',' inner).map (fun t =>
          (estimateTypeSize (trimList t).asString none).stack)).sum)
      | none => Nat.max acc 0) 0
    8 + maxSize

/-- One declaration record pushed into the results by analyzeRustVariables
(the object literal passed to addToResults). -/
structure DeclItem where
  name : String
  declaration : String
  type : String
  stackSize : Nat
  heapSize : Nat
  size : Nat
  file : String
  line : Nat
deriving DecidableEq

/-- The enum declaration record built by analyzeRustVariables (case 4 of
the scanner): stack is estimateEnumSize, heap is the constant 0. -/
def mkEnumItem (name : String) (content : String) (startIndex : Nat)
    (file : String) (line : Nat) : DeclItem :=
  let enumSize := estimateEnumSize content startIndex
  ⟨name, "enum", "enum", enumSize, 0, enumSize, file, line⟩

/-- The closure-detection regex of the binding scanner (anchored: optional
move-plus-whitespace, then a pipe): matches when the initializer starts
with a pipe, or starts with the literal move followed by optional
whitespace and then a pipe (the greedy whitespace run is deterministic
here, and when the move branch fails the optional group backtracks to
empty, which then requires a pipe as the very first character). -/
def isClosureInit (v : String) : Bool :=
  match v.data with
  | '|' :: _ => true
  | _ =>
    if List.isPrefixOf "move".data v.data then
      match (v.data.drop 4).dropWhile jsWs with
      | '|' :: _ => true
      | _ => false
    else false

/-- The declaration label recorded for a binding: the keyword (let, const
or static), plus a mut suffix, overridden by the closure label when the
captured initializer matches the closure-detection regex. -/
def bindingDeclarationOf (declarationType : String) (isMut : Bool)
    (initValue : Option String) : String :=
  let fullDeclaration := if isMut then declarationType ++ " mut" else declarationType
  match initValue with
  | some v => if isClosureInit v then "closure" else fullDeclaration
  | none => fullDeclaration

/-- The binding declaration record built by analyzeRustVariables (case 1 of
the scanner) from the captured groups of one regex match: the size estimate
is computed from the annotated type and the captured initializer, the
declaration label by bindingDeclarationOf. -/
def mkBindingItem (declarationType : String) (isMut : Bool) (name varType : String)
    (initValue : Option String) (file : String) (line : Nat) : DeclItem :=
  let est := estimateTypeSize varType initValue
  ⟨name, bindingDeclarationOf declarationType isMut initValue, varType,
    est.stack, est.heap, est.stack + est.heap, file, line⟩

/-- The parameter count of a function match (case 2 of the scanner): the
comma-split of the captured parameter list, keeping only segments whose
trim is non-empty and does not start with self; the empty capture counts
as zero parameters. -/
def paramCountOf (params : String) : Nat :=
  if params = "" then 0
  else ((splitOnChar ',' params.data).filter
    (fun p => !(trimList p).isEmpty && !(List.isPrefixOf "self".data (trimList p)))).length

/-- The return-type label of a function match: the trimmed third capture
group, or the unit label when the group is absent or trims to empty. -/
def fnReturnLabel (ret : Option String) : String :=
  match ret with
  | none => "()"
  | some r => if trimJs r = "" then "()" else trimJs r

/-- The function declaration record built by analyzeRustVariables (case 2
of the scanner): stack is 8 plus 8 per counted parameter plus the stack
estimate of the return-type label, heap is the constant 0. -/
def mkFnItem (name : String) (params : String) (ret : Option String)
    (file : String) (line : Nat) : DeclItem :=
  let paramCount := paramCountOf params
  let returnType := fnReturnLabel ret
  let returnSize := (estimateTypeSize returnType none).stack
  let fnStack := 8 + paramCount * 8 + returnSize
  ⟨name, "fn", "(" ++ toString paramCount ++ " params) -> " ++ returnType,
    fnStack, 0, fnStack, file, line⟩

/-- Modelled from the words of claim C9 (not from the source): the
parameter count as the claim states it, excluding blank segments and a
leading self token only. -/
def claimParamCount (params : String) : Nat :=
  let segs := (splitOnChar ',' params.data).filter (fun p => !(trimList p).isEmpty)
  match segs with
  | [] => 0
  | first :: rest =>
    if (trimList first).asString = "self" || (trimList first).asString = "&self" ||
        (trimList first).asString = "&mut self" then rest.length
    else (first :: rest).length

/-- One bucket of the typeCounts index of addToResults. -/
structure GroupSummary where
  count : Nat
  totalSize : Nat
deriving DecidableEq

/-- The group key of addToResults: declaration kind, colon, space, type label. -/
def typeKeyOf (item : DeclItem) : String := item.declaration ++ ": " ++ item.type

/-- The accumulating result of analyzeRustVariables: the ordered variables
array and the typeCounts object, the latter modelled as a partial map from
group key to summary (a JS object field that was never assigned is absent). -/
structure ScanState where
  vars : List DeclItem
  groups : String → Option GroupSummary

/-- addToResults of the source: push the item on the variables array, and
create-or-update its group bucket (count incremented, size total bumped). -/
def addToResults (st : ScanState) (item : DeclItem) : ScanState :=
  { vars := st.vars ++ [item]
    groups := fun k =>
      if k = typeKeyOf item then
        some (match st.groups (typeKeyOf item) with
          | none => ⟨1, item.size⟩
          | some g => ⟨g.count + 1, g.totalSize + item.size⟩)
      else st.groups k }

/-- The empty accumulator at the start of a scan pass. -/
def initialState : ScanState := ⟨[], fun _ => none⟩

/-- The typeCounts index produced by folding addToResults over a sequence
of declaration records. -/
def groupsOf (items : List DeclItem) : String → Option GroupSummary :=
  (items.foldl addToResults initialState).groups

/-- The negative lookahead of the binding regex: true exactly when the
input starts with the literal fn followed by a word boundary (end of input
or a non-word character), in which case the lookahead fails. -/
def fnBoundaryAt (s : List Char) : Bool :=
  match s with
  | 'f' :: 'n' :: rest =>
    match rest with
    | [] => true
    | c :: _ => !isWordChar c
  | _ => false

/-- The lookahead-guarded name group of the binding regex at a position:
fails when the lookahead detects a bounded fn, otherwise captures a greedy
identifier (nothing after the name group can force the greedy run to
shrink, since every later piece of the pattern is optional). Returns the
captured name and the remainder. -/
def nameAt (s : List Char) : Option (List Char × List Char) :=
  if fnBoundaryAt s then none
  else
    match s with
    | c :: rest =>
      if isIdentStart c then
        some (c :: rest.takeWhile isWordChar, rest.dropWhile isWordChar)
      else none
    | [] => none

/-- The character class of the optional type annotation of the binding
regex: letters, digits, underscore, colon, angle brackets, square
brackets, comma, whitespace, ampersand and apostrophe. -/
def typeClassChar (c : Char) : Bool :=
  c.isAlpha || c.isDigit || c = '_' || c = ':' || c = '<' || c = '>' ||
    c = '[' || c = ']' || c = ',' || jsWs c || c = '&' || c = squoteChar

/-- The tail of the binding regex after the name capture: greedy
whitespace, then the optional colon-plus-type group.  When the colon is
present, the greedy whitespace-star and the greedy class-plus interact:
the class contains every whitespace character, so the combined extent is
the whitespace run followed by the class run, except that when the class
run after the whitespace is empty the whitespace-star backtracks one
character (that character, being whitespace, is in the class), and when
both runs are empty the optional group matches nothing and the colon is
left unconsumed.  Returns the remainder after the full match. -/
def bindingRestAfterName (s : List Char) : List Char :=
  let s1 := s.dropWhile jsWs
  match s1 with
  | ':' :: u =>
    let w := u.takeWhile jsWs
    let v := u.drop w.length
    let cls := v.takeWhile typeClassChar
    if !cls.isEmpty then v.drop cls.length
    else if !w.isEmpty then v
    else s1
  | _ => s1

/-- The keyword alternation of the binding regex at a position (the three
alternatives start with distinct characters, so at most one can match). -/
def keywordAt (s : List Char) : Option (List Char) :=
  if List.isPrefixOf "let".data s then some (s.drop 3)
  else if List.isPrefixOf "const".data s then some (s.drop 5)
  else if List.isPrefixOf "static".data s then some (s.drop 6)
  else none

/-- The optional mut group plus the name group of the binding regex, from
the position after the keyword whitespace: when the mut group can match
(literal mut followed by whitespace) the engine tries the name after it
first, and on failure backtracks to the empty group and retries the name
at the current position (so a lone mut can itself become the name). -/
def bindingNameFrom (s2 : List Char) : Option (List Char × List Char) :=
  if List.isPrefixOf "mut".data s2 then
    let t := s2.drop 3
    let s3 := t.dropWhile jsWs
    if s3.length = t.length then nameAt s2
    else
      match nameAt s3 with
      | some r => some r
      | none => nameAt s2
  else nameAt s2

/-- One attempt of the whole binding regex at a position: keyword, at
least one whitespace character, optional mut, lookahead-guarded name,
optional type annotation.  Returns the captured name and the remainder of
the input after the match. -/
def bindingMatchAt (s : List Char) : Option (String × List Char) :=
  match keywordAt s with
  | none => none
  | some s1 =>
    let s2 := s1.dropWhile jsWs
    if s2.length = s1.length then none
    else
      match bindingNameFrom s2 with
      | some (nmc, rest) => some (nmc.asString, bindingRestAfterName rest)
      | none => none

/-- The exec loop of the binding regex over a whole file: on a match,
record the captured name and resume after the match (the lastIndex
behaviour of a global JS regex); otherwise slide one character.  The fuel
argument bounds the number of steps; every step strictly shortens the
remaining input (proved below), so a fuel equal to the input length is
exact, never truncating. -/
def scanBindingsAux : Nat → List Char → List String
  | 0, _ => []
  | fuel + 1, s =>
    match bindingMatchAt s with
    | some (nm, rem) => nm :: scanBindingsAux fuel rem
    | none =>
      match s with
      | [] => []
      | _ :: rest => scanBindingsAux fuel rest

/-- All names captured by the binding regex over a file content.  The
produced binding declarations of analyzeRustVariables are these matches
minus the ones whose line starts with a comment marker, so every recorded
binding name occurs in this list. -/
def scanBindingNames (content : String) : List String :=
  scanBindingsAux content.data.length content.data

/-- Claim C1, counterexample: on the input text of the claim, the enum
size estimation does not yield stack 16; the comma inside the tuple
payload splits the brace interior into segments in which no complete
parenthesized payload remains, so every variant contributes 0. -/
theorem enum_tuple_variant_counterexample :
    estimateEnumSize "enum E \x7b A, B(i32, i32) \x7d" 0 ≠ 16 := by decide

/-- Claim C1 (amended): for the input text of the claim, the enum
declaration record carries stack size 8 (discriminant only: the comma
split of the brace interior breaks the two-field tuple payload, leaving no
segment with a complete parenthesized payload, so the maximal variant size
is 0) and heap size 0. -/
theorem enum_tuple_variant_size :
    (mkEnumItem "E" "enum E \x7b A, B(i32, i32) \x7d" 0 "main.rs" 1).stackSize = 8 ∧
    (mkEnumItem "E" "enum E \x7b A, B(i32, i32) \x7d" 0 "main.rs" 1).heapSize = 0 := by
  decide

/-- Claim C2 (code bug evidence): for the label of the form open-bracket
u8 semicolon N close-bracket, the estimator returns stack 1 and heap 0
(the one-byte u8 substring rule fires first), even though the dedicated
fixed-size array rule later in the table would parse the literal 7; that
rule is unreachable for any such label. -/
theorem u8_array_rule_shadowed :
    estimateTypeSize "[u8; 7]" none = ⟨1, 0⟩ ∧ u8ArrayLen "[u8; 7]".data = some 7 := by
  decide

/-- Claim C3, counterexample: a struct declaration with no following brace
pair is estimated at stack 0 and heap 0, not at the 8-byte floor the claim
states. -/
theorem struct_no_brace_counterexample :
    estimateStructSize "struct S;" 0 ≠ ⟨8, 0⟩ ∧ estimateStructSize "struct S;" 0 = ⟨0, 0⟩ := by
  decide

/-- Claim C3 (amended): for every content and start offset such that no
brace pair follows the offset, the struct/union size estimate is the zero
pair (the 8-byte floor applies only when a brace interior exists but no
field matches). -/
theorem struct_no_brace_zero (content : String) (startIndex : Nat)
    (h : braceInterior (content.data.drop startIndex) = none) :
    estimateStructSize content startIndex = ⟨0, 0⟩ := by
  unfold estimateStructSize
  rw [h]

/-- Witness for struct_no_brace_zero at a concrete input. -/
theorem struct_no_brace_zero_witness :
    braceInterior ("struct S;".data.drop 0) = none ∧
    estimateStructSize "struct S;" 0 = ⟨0, 0⟩ :=
  ⟨by decide, struct_no_brace_zero "struct S;" 0 (by decide)⟩

/-- Claim C4: the five primitive labels of the claim estimate exactly as
stated, with no initializer; in particular the sixteen-byte i128 row is
not shadowed by the one-byte i8 rule. -/
theorem primitive_label_estimates :
    estimateTypeSize "i32" none = ⟨4, 0⟩ ∧
    estimateTypeSize "u8" none = ⟨1, 0⟩ ∧
    estimateTypeSize "bool" none = ⟨1, 0⟩ ∧
    estimateTypeSize "char" none = ⟨4, 0⟩ ∧
    estimateTypeSize "i128" none = ⟨16, 0⟩ := by
  decide

/-- Claim C5: the String label gives 24 stack bytes, with heap refined
from the initializer: the empty constructor gives heap 0, and a quoted
String::from literal gives the length of the quoted content. -/
theorem string_label_heap_estimates :
    estimateTypeSize "String" (some "String::new()") = ⟨24, 0⟩ ∧
    estimateTypeSize "String" (some "String::from(\"hello\")") = ⟨24, 5⟩ := by
  decide

/-- Claim C6 (code bug evidence): the Vec-of-u8 label with a capacity
initializer is estimated at stack 1 and heap 0, because the u8 substring
rule fires before the vector row; the vector heap heuristic, had it been
reached, would compute heap 100 from the literal capacity times the
one-byte element size. -/
theorem vec_u8_capacity_shadowed :
    estimateTypeSize "Vec<u8>" (some "Vec::with_capacity(100)") = ⟨1, 0⟩ ∧
    estimateVecHeap "Vec<u8>" (some "Vec::with_capacity(100)") = 100 := by
  decide

/-- Claim C9, counterexample: at a parameter list whose second segment
starts with self, the recorded stack size of the function record differs
from the formula of the claim (which excludes only a leading self token):
the source excludes every segment whose trim starts with self. -/
theorem fn_param_count_counterexample :
    (mkFnItem "f" "a: i32, self_x: u8" none "main.rs" 1).stackSize ≠
      8 + 8 * claimParamCount "a: i32, self_x: u8" +
        (estimateTypeSize (fnReturnLabel none) none).stack := by
  decide

/-- Claim C9 (amended): for every function match, the recorded heap size
is 0, the recorded total equals the stack size, and the recorded stack
size is 8 plus 8 per parameter plus the stack estimate of the return-type
label (unit when absent), where the parameter count is the number of
comma-split segments whose trim is non-empty and does not start with
self. -/
theorem fn_item_stack_formula (name params : String) (ret : Option String)
    (file : String) (line : Nat) :
    (mkFnItem name params ret file line).heapSize = 0 ∧
    (mkFnItem name params ret file line).size = (mkFnItem name params ret file line).stackSize ∧
    (mkFnItem name params ret file line).stackSize =
      8 + 8 * ((splitOnChar ',' params.data).countP
        (fun p => !(trimList p).isEmpty && !(List.isPrefixOf "self".data (trimList p)))) +
      (estimateTypeSize (fnReturnLabel ret) none).stack := by
  refine ⟨rfl, rfl, ?_⟩
  simp only [mkFnItem, List.countP_eq_length_filter]
  unfold paramCountOf
  by_cases hp : params = ""
  · subst hp
    simp [splitOnChar, splitOnCharAux, trimList]
  · simp [hp, Nat.mul_comm]

/-- Claim C10: whenever the captured initializer matches the closure
regex (a pipe, or move then optional whitespace then a pipe), the
recorded declaration label of the binding is the closure label, and the
size estimate is still the one computed from the annotated type and that
initializer. -/
theorem closure_initializer_overrides_kind (declarationType : String) (isMut : Bool)
    (name varType : String) (v : String) (file : String) (line : Nat)
    (h : isClosureInit v = true) :
    (mkBindingItem declarationType isMut name varType (some v) file line).declaration =
        "closure" ∧
    (mkBindingItem declarationType isMut name varType (some v) file line).stackSize =
        (estimateTypeSize varType (some v)).stack ∧
    (mkBindingItem declarationType isMut name varType (some v) file line).heapSize =
        (estimateTypeSize varType (some v)).heap := by
  refine ⟨?_, rfl, rfl⟩
  simp [mkBindingItem, bindingDeclarationOf, h]

/-- Witness for closure_initializer_overrides_kind at a concrete input. -/
theorem closure_initializer_overrides_kind_witness :
    isClosureInit "move |x| x + 1" = true ∧
    (mkBindingItem "let" false "f" "inferido" (some "move |x| x + 1") "main.rs" 3).declaration =
        "closure" ∧
    (mkBindingItem "let" false "f" "inferido" (some "move |x| x + 1") "main.rs" 3).stackSize =
        (estimateTypeSize "inferido" (some "move |x| x + 1")).stack ∧
    (mkBindingItem "let" false "f" "inferido" (some "move |x| x + 1") "main.rs" 3).heapSize =
        (estimateTypeSize "inferido" (some "move |x| x + 1")).heap :=
  ⟨by decide,
    closure_initializer_overrides_kind "let" false "f" "inferido" "move |x| x + 1"
      "main.rs" 3 (by decide)⟩
/-- Folding addToResults over one more item appends it to the fold. -/
theorem groupsOf_append_singleton (items : List DeclItem) (a : DeclItem) :
    groupsOf (items ++ [a]) =
      (addToResults (items.foldl addToResults initialState) a).groups := by
  simp [groupsOf, List.foldl_append]

/-- The group bucket of a key after a scan pass: absent when no
declaration has that key, otherwise the count of such declarations paired
with the sum of their size totals. -/
theorem groupsOf_characterization (items : List DeclItem) (key : String) :
    groupsOf items key =
      (if (items.filter (fun it => typeKeyOf it == key)).isEmpty then none
       else some ⟨(items.filter (fun it => typeKeyOf it == key)).length,
         ((items.filter (fun it => typeKeyOf it == key)).map DeclItem.size).sum⟩) := by
  induction items using List.reverseRecOn with
  | nil => rfl
  | append_singleton l a ih =>
    rw [groupsOf_append_singleton]
    show (addToResults (l.foldl addToResults initialState) a).groups key = _
    by_cases hk : key = typeKeyOf a
    · subst hk
      simp only [addToResults, if_pos rfl]
      have hpred : (fun it => typeKeyOf it == typeKeyOf a) a = true := by simp
      rw [List.filter_append, List.filter_cons, List.filter_nil]
      simp only [hpred, if_pos]
      show some _ = _
      have hgl : (l.foldl addToResults initialState).groups (typeKeyOf a)
          = groupsOf l (typeKeyOf a) := rfl
      rw [hgl, ih]
      by_cases he : (l.filter (fun it => typeKeyOf it == typeKeyOf a)).isEmpty
      · have hnil : l.filter (fun it => typeKeyOf it == typeKeyOf a) = [] :=
          List.isEmpty_iff.mp he
        simp [he, hnil]
      · simp only [he, if_neg, Bool.false_eq_true, not_false_eq_true]
        have : ((l.filter (fun it => typeKeyOf it == typeKeyOf a)) ++ [a]).isEmpty = false := by
          simp
        simp [this, List.sum_append]
    · have hpred : (fun it => typeKeyOf it == key) a = false := by
        simp only [beq_eq_false_iff_ne, ne_eq]
        exact fun hc => hk hc.symm
      simp only [addToResults, if_neg hk]
      rw [List.filter_append, List.filter_cons, List.filter_nil]
      simp only [hpred, Bool.false_eq_true, if_false, List.append_nil]
      exact ih

/-- Flattening a reversed batch list permutes flattening the batch list. -/
theorem flatten_reverse_perm {α : Type} (batches : List (List α)) :
    (batches.reverse).flatten.Perm batches.flatten := by
  induction batches with
  | nil => exact List.Perm.refl _
  | cons b bs ih =>
    simp only [List.reverse_cons, List.flatten_append, List.flatten_cons,
      List.flatten_nil, List.append_nil]
    exact List.perm_append_comm.trans (List.Perm.append_left b ih)

/-- Claim C7: for every batch list (one batch of declaration records per
file, in discovery order) and every group key, the group bucket of the
scan equals the count and summed size totals of exactly the declarations
carrying that key, and the group index computed from the files in
reversed order agrees with the original one on every key. -/
theorem group_totals_and_order_independence (batches : List (List DeclItem)) (key : String) :
    (groupsOf batches.flatten key =
      (if (batches.flatten.filter (fun it => typeKeyOf it == key)).isEmpty then none
       else some ⟨(batches.flatten.filter (fun it => typeKeyOf it == key)).length,
         ((batches.flatten.filter (fun it => typeKeyOf it == key)).map DeclItem.size).sum⟩)) ∧
    groupsOf (batches.reverse).flatten key = groupsOf batches.flatten key := by
  refine ⟨groupsOf_characterization _ _, ?_⟩
  rw [groupsOf_characterization, groupsOf_characterization]
  have hf := (flatten_reverse_perm batches).filter (fun it => typeKeyOf it == key)
  refine if_congr ?_ rfl ?_
  · simp [List.isEmpty_iff_length_eq_zero, hf.length_eq]
  · rw [hf.length_eq, (hf.map DeclItem.size).sum_eq]
/-- The name captured by the lookahead-guarded name group is never the
two-character word fn: a captured name equal to fn would be a greedy word
run of exactly f then n, which is precisely the bounded fn the negative
lookahead rejects at the same position. -/
theorem nameAt_ne_fn (s nmc rest : List Char) (h : nameAt s = some (nmc, rest)) :
    nmc ≠ ['f', 'n'] := by
  intro hfn
  subst hfn
  unfold nameAt at h
  by_cases hb : fnBoundaryAt s
  · simp [hb] at h
  · simp only [hb, Bool.false_eq_true, if_false] at h
    cases s with
    | nil => simp at h
    | cons c rest0 =>
      dsimp only at h
      by_cases hi : isIdentStart c
      · rw [if_pos hi] at h
        rw [Option.some.injEq, Prod.mk.injEq] at h
        obtain ⟨h1, -⟩ := h
        rw [List.cons.injEq] at h1
        obtain ⟨hc, htw⟩ := h1
        subst hc
        apply hb
        revert htw
        cases rest0 with
        | nil => intro htw; simp at htw
        | cons d r1 =>
          intro htw
          rw [List.takeWhile_cons] at htw
          by_cases hw : isWordChar d
          · rw [if_pos hw, List.cons.injEq] at htw
            obtain ⟨hd, htw1⟩ := htw
            subst hd
            revert htw1
            cases r1 with
            | nil => intro htw1; rfl
            | cons e r2 =>
              intro htw1
              rw [List.takeWhile_cons] at htw1
              by_cases he : isWordChar e
              · rw [if_pos he] at htw1; simp at htw1
              · show fnBoundaryAt ('f' :: 'n' :: e :: r2) = true
                simp [fnBoundaryAt, he]
          · rw [if_neg hw] at htw; simp at htw
      · simp [hi] at h
/-- Whichever way the optional mut group resolves, the captured binding
name is never fn. -/
theorem bindingNameFrom_ne_fn (s2 nmc rest : List Char)
    (h : bindingNameFrom s2 = some (nmc, rest)) : nmc ≠ ['f', 'n'] := by
  unfold bindingNameFrom at h
  by_cases hm : List.isPrefixOf "mut".data s2
  · rw [if_pos hm] at h
    by_cases hw : ((s2.drop 3).dropWhile jsWs).length = (s2.drop 3).length
    · rw [if_pos hw] at h
      exact nameAt_ne_fn _ _ _ h
    · rw [if_neg hw] at h
      cases hn : nameAt ((s2.drop 3).dropWhile jsWs) with
      | some r =>
        rw [hn] at h
        obtain ⟨nmc2, rest2⟩ := r
        rw [Option.some.injEq] at h
        cases h
        exact nameAt_ne_fn _ _ _ hn
      | none =>
        rw [hn] at h
        exact nameAt_ne_fn _ _ _ h
  · rw [if_neg hm] at h
    exact nameAt_ne_fn _ _ _ h

/-- The name captured by one attempt of the full binding regex is never
the word fn. -/
theorem bindingMatchAt_ne_fn (s : List Char) (nm : String) (rem : List Char)
    (h : bindingMatchAt s = some (nm, rem)) : nm ≠ "fn" := by
  unfold bindingMatchAt at h
  cases hk : keywordAt s with
  | none => rw [hk] at h; simp at h
  | some s1 =>
    rw [hk] at h
    dsimp only at h
    by_cases hw : (s1.dropWhile jsWs).length = s1.length
    · rw [if_pos hw] at h; simp at h
    · rw [if_neg hw] at h
      cases hn : bindingNameFrom (s1.dropWhile jsWs) with
      | none => rw [hn] at h; simp at h
      | some r =>
        obtain ⟨nmc, rest⟩ := r
        rw [hn] at h
        rw [Option.some.injEq, Prod.mk.injEq] at h
        obtain ⟨hnm, -⟩ := h
        intro hfn
        apply bindingNameFrom_ne_fn _ _ _ hn
        have : nmc.asString = (['f', 'n'] : List Char).asString := by
          rw [hnm, hfn]; rfl
        exact List.asString_inj.mp this

/-- One-step unfolding of the binding exec loop. -/
theorem scanBindingsAux_succ (n : Nat) (s : List Char) :
    scanBindingsAux (n + 1) s =
      (match bindingMatchAt s with
      | some (nm, rem) => nm :: scanBindingsAux n rem
      | none =>
        match s with
        | [] => []
        | _ :: rest => scanBindingsAux n rest) := rfl

/-- No name in the output of the binding exec loop is the word fn, for any
fuel. -/
theorem scanBindingsAux_ne_fn (fuel : Nat) : ∀ (s : List Char) (nm : String),
    nm ∈ scanBindingsAux fuel s → nm ≠ "fn" := by
  induction fuel with
  | zero => intro s nm h; simp [scanBindingsAux] at h
  | succ n ih =>
    intro s nm h
    rw [scanBindingsAux_succ] at h
    cases hm : bindingMatchAt s with
    | some pr =>
      obtain ⟨nm1, rem⟩ := pr
      rw [hm] at h
      rcases List.mem_cons.mp h with h1 | h2
      · subst h1; exact bindingMatchAt_ne_fn _ _ _ hm
      · exact ih rem nm h2
    | none =>
      rw [hm] at h
      cases s with
      | nil => simp at h
      | cons c rest => exact ih rest nm h

/-- Claim C8: over any input text, the binding scanner never captures a
binding named fn (in particular a const fn is never recorded as a
binding); the produced binding declarations are a subset of these
captures, since the comment filter only discards matches. -/
theorem binding_name_never_fn (content : String) :
    ∀ nm ∈ scanBindingNames content, nm ≠ "fn" := by
  intro nm h
  exact scanBindingsAux_ne_fn _ _ nm h

/-- Witness for binding_name_never_fn at a concrete input. -/
theorem binding_name_never_fn_witness :
    ("x" ∈ scanBindingNames "let x = 5;") ∧ "x" ≠ "fn" :=
  ⟨by decide, binding_name_never_fn "let x = 5;" "x" (by decide)⟩
/-- Dropping a while-prefix never lengthens a list. -/
theorem length_dropWhile_le_self (p : Char → Bool) (l : List Char) :
    (l.dropWhile p).length ≤ l.length :=
  List.Sublist.length_le (List.dropWhile_sublist p)

/-- A successful keyword match strictly shortens the input. -/
theorem keywordAt_length_lt (s s1 : List Char) (h : keywordAt s = some s1) :
    s1.length < s.length := by
  unfold keywordAt at h
  by_cases h3 : List.isPrefixOf "let".data s
  · rw [if_pos h3, Option.some.injEq] at h
    have hl : 3 ≤ s.length := by simpa using (List.isPrefixOf_iff_prefix.mp h3).length_le
    subst h
    simp only [List.length_drop]
    omega
  · rw [if_neg h3] at h
    by_cases h5 : List.isPrefixOf "const".data s
    · rw [if_pos h5, Option.some.injEq] at h
      have hl : 5 ≤ s.length := by simpa using (List.isPrefixOf_iff_prefix.mp h5).length_le
      subst h
      simp only [List.length_drop]
      omega
    · rw [if_neg h5] at h
      by_cases h6 : List.isPrefixOf "static".data s
      · rw [if_pos h6, Option.some.injEq] at h
        have hl : 6 ≤ s.length := by simpa using (List.isPrefixOf_iff_prefix.mp h6).length_le
        subst h
        simp only [List.length_drop]
        omega
      · rw [if_neg h6] at h
        exact absurd h (by simp)

/-- A successful name capture strictly shortens the input. -/
theorem nameAt_length_lt (s nmc rest : List Char) (h : nameAt s = some (nmc, rest)) :
    rest.length < s.length := by
  unfold nameAt at h
  by_cases hb : fnBoundaryAt s
  · simp [hb] at h
  · simp only [hb, Bool.false_eq_true, if_false] at h
    cases s with
    | nil => simp at h
    | cons c rest0 =>
      dsimp only at h
      by_cases hi : isIdentStart c
      · rw [if_pos hi, Option.some.injEq, Prod.mk.injEq] at h
        obtain ⟨-, h2⟩ := h
        subst h2
        have := length_dropWhile_le_self isWordChar rest0
        simp only [List.length_cons]
        omega
      · simp [hi] at h

/-- The tail of the binding match never lengthens the input. -/
theorem bindingRestAfterName_length_le (s : List Char) :
    (bindingRestAfterName s).length ≤ s.length := by
  have h0 : (s.dropWhile jsWs).length ≤ s.length := length_dropWhile_le_self jsWs s
  simp only [bindingRestAfterName]
  split
  · rename_i u heq
    have hu : u.length + 1 ≤ s.length := by
      rw [heq] at h0; simpa using h0
    split
    · simp only [List.length_drop]; omega
    · split
      · simp only [List.length_drop]; omega
      · exact h0
  · exact h0

/-- Resolving the mut group and name strictly shortens the input. -/
theorem bindingNameFrom_length_lt (s2 nmc rest : List Char)
    (h : bindingNameFrom s2 = some (nmc, rest)) : rest.length < s2.length := by
  unfold bindingNameFrom at h
  by_cases hm : List.isPrefixOf "mut".data s2
  · rw [if_pos hm] at h
    by_cases hw : ((s2.drop 3).dropWhile jsWs).length = (s2.drop 3).length
    · rw [if_pos hw] at h
      exact nameAt_length_lt _ _ _ h
    · rw [if_neg hw] at h
      cases hn : nameAt ((s2.drop 3).dropWhile jsWs) with
      | some r =>
        obtain ⟨nmc2, rest2⟩ := r
        rw [hn, Option.some.injEq] at h
        cases h
        have h1 := nameAt_length_lt _ _ _ hn
        have h2 := length_dropWhile_le_self jsWs (s2.drop 3)
        have h3 : (s2.drop 3).length ≤ s2.length := by simp [List.length_drop]
        omega
      | none =>
        rw [hn] at h
        exact nameAt_length_lt _ _ _ h
  · rw [if_neg hm] at h
    exact nameAt_length_lt _ _ _ h

/-- A successful binding match strictly shortens the remaining input, so
the exec loop needs at most one fuel unit per input character. -/
theorem bindingMatchAt_length_lt (s : List Char) (nm : String) (rem : List Char)
    (h : bindingMatchAt s = some (nm, rem)) : rem.length < s.length := by
  unfold bindingMatchAt at h
  cases hk : keywordAt s with
  | none => rw [hk] at h; simp at h
  | some s1 =>
    rw [hk] at h
    dsimp only at h
    by_cases hw : (s1.dropWhile jsWs).length = s1.length
    · rw [if_pos hw] at h; simp at h
    · rw [if_neg hw] at h
      cases hn : bindingNameFrom (s1.dropWhile jsWs) with
      | none => rw [hn] at h; simp at h
      | some r =>
        obtain ⟨nmc, rest⟩ := r
        rw [hn, Option.some.injEq, Prod.mk.injEq] at h
        obtain ⟨-, h2⟩ := h
        subst h2
        have h1 := bindingNameFrom_length_lt _ _ _ hn
        have h3 := bindingRestAfterName_length_le rest
        have h4 := length_dropWhile_le_self jsWs s1
        have h5 := keywordAt_length_lt s s1 hk
        omega

/-- The exec loop is insensitive to the exact fuel as long as the fuel
covers the input length: the fuel used in scanBindingNames is exact. -/
theorem scanBindingsAux_stable (f : Nat) : ∀ (g : Nat) (s : List Char),
    s.length ≤ f → s.length ≤ g → scanBindingsAux f s = scanBindingsAux g s := by
  induction f with
  | zero =>
    intro g s hf hg
    have hs : s = [] := List.eq_nil_of_length_eq_zero (Nat.le_zero.mp hf)
    subst hs
    cases g with
    | zero => rfl
    | succ g' => rfl
  | succ n ih =>
    intro g s hf hg
    cases g with
    | zero =>
      have hs : s = [] := List.eq_nil_of_length_eq_zero (Nat.le_zero.mp hg)
      subst hs; rfl
    | succ g' =>
      rw [scanBindingsAux_succ, scanBindingsAux_succ]
      cases hm : bindingMatchAt s with
      | some pr =>
        obtain ⟨nm, rem⟩ := pr
        have hlt := bindingMatchAt_length_lt _ _ _ hm
        dsimp only
        rw [ih g' rem (by omega) (by omega)]
      | none =>
        cases s with
        | nil => rfl
        | cons c rest =>
          have : rest.length ≤ n := by simp at hf; omega
          have h2 : rest.length ≤ g' := by simp at hg; omega
          dsimp only
          rw [ih g' rest this h2]
